import Mathlib

set_option maxRecDepth 40000

/-!
# Verification of the sledlite LSM storage engine

Shallow embedding of the sledlite-engine repository
(crates/sledlite-core: `wal.rs`, `radix.rs`, `node.rs`, `sst.rs`, `engine.rs`;
crates/raft-store: `command.rs`) together with proofs about the embedded
definitions.

Bytes are modelled as `Nat` (with `< 256` well-formedness hypotheses where a
result depends on byte range), byte strings as `List Nat`, machine integers
as `Nat` with explicit `% 2 ^ w` where the width matters, and fallible code
as `Except`/`Option` (`Option.none` marks a Rust panic such as
`unwrap`/`todo!`).
-/

namespace Sledlite

/-! ## Big-endian integer encoding

`u64::to_be_bytes` / `u32::to_be_bytes` and `u64::from_be_bytes` /
`u32::from_be_bytes` as used throughout `wal.rs`, `sst.rs` and `command.rs`. -/

/-- Model of `n.to_be_bytes` for a `w`-byte unsigned integer: most significant byte
first.  The value is reduced modulo `2 ^ (8 * w)` as machine arithmetic does. -/
def natToBe (w n : Nat) : List Nat :=
  match w with
  | 0 => []
  | w' + 1 => natToBe w' (n / 256) ++ [n % 256]

/-- Model of `uN::from_be_bytes`: fold the bytes most-significant first. -/
def beToNat (bs : List Nat) : Nat :=
  bs.foldl (fun acc b => acc * 256 + b) 0

/-! ## CRC32

`crc32fast::Hasher` computes the standard CRC-32 (IEEE, reflected
representation, initial value `0xFFFFFFFF`, final xor `0xFFFFFFFF`,
polynomial `0xEDB88320`).  All arithmetic is on `u32`, so every step is
reduced modulo `2 ^ 32`. -/

/-- One bit-step of the reflected CRC-32: shift right and conditionally xor
the reflected polynomial. -/
def crc32Step (c : Nat) : Nat :=
  if c % 2 = 1 then ((c / 2) ^^^ 0xEDB88320) % 4294967296 else (c / 2) % 4294967296

/-- Absorb one input byte: xor it into the low bits, then run eight bit-steps. -/
def crc32Byte (c b : Nat) : Nat :=
  crc32Step (crc32Step (crc32Step (crc32Step
    (crc32Step (crc32Step (crc32Step (crc32Step ((c ^^^ b) % 4294967296))))))))

/-- Model of `Hasher::new()` + `update(bytes)` + `finalize()`. -/
def crc32 (bytes : List Nat) : Nat :=
  (bytes.foldl crc32Byte 0xFFFFFFFF) ^^^ 0xFFFFFFFF

/-! ## WAL records (`wal.rs`)

A record is laid out as
`[lsn: 8B][op: 1B][klen: 4B][key][vlen: 4B][value][crc32: 4B]`,
all integers big-endian; the CRC covers `op ∥ klen ∥ key ∥ vlen ∥ value`
(the LSN is excluded). -/

/-- Model of `WalOp` (`wal.rs`). -/
inductive WalOp where
  | Put
  | Delete
deriving DecidableEq, Repr

/-- Model of `Into<u8> for WalOp`. -/
def WalOp.toByte : WalOp → Nat
  | .Put => 1
  | .Delete => 2

/-- Model of `From<u8> for WalOp`: `1 => Put, 2 => Delete, _ => Put`. -/
def WalOp.ofByte (b : Nat) : WalOp :=
  if b = 1 then .Put else if b = 2 then .Delete else .Put

/-- Model of `WalRecord` (`wal.rs`): the parsed, in-memory form.  `value = none` both
for Delete records and (as the reader produces) for `vlen = 0`. -/
structure WalRecord where
  lsn : Nat
  op : WalOp
  key : List Nat
  value : Option (List Nat)
deriving DecidableEq, Repr

/-- The bytes fed to the CRC hasher by `WalWriter::append_record`:
`op ∥ klen ∥ key ∥ vlen ∥ value` (value absent for `None`). -/
def crcPayload (op : WalOp) (key : List Nat) (value : Option (List Nat)) : List Nat :=
  [op.toByte] ++ natToBe 4 key.length ++ key ++
    (match value with
     | some v => natToBe 4 v.length ++ v
     | none => natToBe 4 0)

/-- Serialization of one record with an explicitly chosen CRC field (used to
model corrupted records). -/
def encodeRecordWithCrc (r : WalRecord) (crc : Nat) : List Nat :=
  natToBe 8 r.lsn ++ crcPayload r.op r.key r.value ++ natToBe 4 crc

/-- Model of `WalWriter::append_record`: the bytes appended for one record; the stored
CRC is the hash of the payload. -/
def encodeRecord (r : WalRecord) : List Nat :=
  encodeRecordWithCrc r (crc32 (crcPayload r.op r.key r.value))

/-- The byte image of a whole record sequence (the WAL contents after the
16-byte header). -/
def encodeRecords (rs : List WalRecord) : List Nat :=
  (rs.map encodeRecord).flatten

/-- What `WalReader::read_all` reconstructs from a record `r` that was written
by `append_record`: the LSN is reduced to 64 bits by the u64 round trip, and a
value of length 0 comes back as `None` (the reader keeps the value only when
`vlen > 0`). -/
def decodedRecord (r : WalRecord) : WalRecord :=
  { lsn := r.lsn % 256 ^ 8
    op := r.op
    key := r.key
    value := r.value.bind fun v => if v.length = 0 then none else some v }

/-- Well-formedness of a record as produced by the writer: the length fields
fit the `u32` casts performed by `append_record`. -/
def WFRecord (r : WalRecord) : Prop :=
  r.key.length < 256 ^ 4 ∧ (∀ v, r.value = some v → v.length < 256 ^ 4)

instance : DecidablePred WFRecord := fun r => by
  unfold WFRecord
  infer_instance

/-! ### The reader (`WalReader::read_all`)

`read_all` seeks past the 16-byte header and repeatedly parses records.  An
EOF while reading the LSN or the op byte `break`s out of the loop (records so
far are returned); an EOF in any later field is propagated with `?` as an
`UnexpectedEof` I/O error; a CRC mismatch `break`s. -/

/-- Model of `Read::read_exact` into an `n`-byte buffer over an in-memory byte list:
returns the bytes and the remainder, or `none` on `UnexpectedEof` (fewer than
`n` bytes left). -/
def readExact (n : Nat) (input : List Nat) : Option (List Nat × List Nat) :=
  if n ≤ input.length then some (input.take n, input.drop n) else none

/-- Outcome of one iteration of the `read_all` loop. -/
inductive ParseStep where
  /-- EOF while reading `lsn` or `op`: `break` (clean stop). -/
  | eofBreak
  /-- EOF in a later field: `read_exact(..)?` propagates an error. -/
  | eofError
  /-- CRC mismatch: `break` (clean stop). -/
  | crcMismatch
  /-- A full record was parsed and its CRC checked. -/
  | record (r : WalRecord) (rest : List Nat)

/-- One iteration of the `read_all` loop body (`wal.rs`, `read_all`). -/
def parseRecord (input : List Nat) : ParseStep :=
  match readExact 8 input with
  | none => .eofBreak
  | some (lsnBuf, rest) =>
    match readExact 1 rest with
    | none => .eofBreak
    | some (opBuf, rest) =>
      match readExact 4 rest with
      | none => .eofError
      | some (keyLenBuf, rest) =>
        let keyLen := beToNat keyLenBuf
        match readExact keyLen rest with
        | none => .eofError
        | some (keyBuf, rest) =>
          match readExact 4 rest with
          | none => .eofError
          | some (valLenBuf, rest) =>
            let valLen := beToNat valLenBuf
            let parsedVal : Option (Option (List Nat) × List Nat) :=
              if valLen > 0 then
                match readExact valLen rest with
                | none => none
                | some (valBuf, rest) => some (some valBuf, rest)
              else some (none, rest)
            match parsedVal with
            | none => .eofError
            | some (val, rest) =>
              match readExact 4 rest with
              | none => .eofError
              | some (crcBuf, rest) =>
                let crc := beToNat crcBuf
                let calcCrc := crc32 (opBuf ++ keyLenBuf ++ keyBuf ++ valLenBuf ++
                  (match val with | some v => v | none => []))
                if calcCrc = crc then
                  .record ⟨beToNat lsnBuf, WalOp.ofByte (opBuf.headD 0), keyBuf, val⟩ rest
                else
                  .crcMismatch

theorem readExact_length {n : Nat} {input rest buf : List Nat}
    (h : readExact n input = some (buf, rest)) :
    n ≤ input.length ∧ buf.length = n ∧ rest.length = input.length - n := by
  unfold readExact at h
  split at h
  · next hle =>
      injection h with h
      injection h with h1 h2
      subst h1; subst h2
      refine ⟨hle, ?_, by simp⟩
      simp [List.length_take, Nat.min_eq_left hle]
  · exact absurd h (by simp)

theorem parseRecord_record_length {input : List Nat} {r : WalRecord}
    {rest : List Nat} (h : parseRecord input = .record r rest) :
    rest.length < input.length := by
  unfold parseRecord at h
  cases h8 : readExact 8 input with
  | none => simp [h8] at h
  | some p8 =>
    obtain ⟨lsnBuf, rest1⟩ := p8
    simp only [h8] at h
    obtain ⟨hle8, -, hr1⟩ := readExact_length h8
    cases h1 : readExact 1 rest1 with
    | none => simp [h1] at h
    | some p1 =>
      obtain ⟨opBuf, rest2⟩ := p1
      simp only [h1] at h
      obtain ⟨-, -, hr2⟩ := readExact_length h1
      cases h4 : readExact 4 rest2 with
      | none => simp [h4] at h
      | some p4 =>
        obtain ⟨keyLenBuf, rest3⟩ := p4
        simp only [h4] at h
        obtain ⟨-, -, hr3⟩ := readExact_length h4
        cases hk : readExact (beToNat keyLenBuf) rest3 with
        | none => simp [hk] at h
        | some pk =>
          obtain ⟨keyBuf, rest4⟩ := pk
          simp only [hk] at h
          obtain ⟨-, -, hr4⟩ := readExact_length hk
          cases hv4 : readExact 4 rest4 with
          | none => simp [hv4] at h
          | some pv4 =>
            obtain ⟨valLenBuf, rest5⟩ := pv4
            simp only [hv4] at h
            obtain ⟨-, -, hr5⟩ := readExact_length hv4
            by_cases hvpos : beToNat valLenBuf > 0
            · simp only [if_pos hvpos] at h
              cases hvv : readExact (beToNat valLenBuf) rest5 with
              | none => simp [hvv] at h
              | some pvv =>
                obtain ⟨valBuf, rest6⟩ := pvv
                simp only [hvv] at h
                obtain ⟨-, -, hr6⟩ := readExact_length hvv
                cases hc : readExact 4 rest6 with
                | none => simp [hc] at h
                | some pc =>
                  obtain ⟨crcBuf, rest7⟩ := pc
                  simp only [hc] at h
                  obtain ⟨-, -, hr7⟩ := readExact_length hc
                  split at h
                  · injection h with h hrest
                    subst hrest
                    omega
                  · simp at h
            · simp only [if_neg hvpos] at h
              cases hc : readExact 4 rest5 with
              | none => simp [hc] at h
              | some pc =>
                obtain ⟨crcBuf, rest7⟩ := pc
                simp only [hc] at h
                obtain ⟨-, -, hr7⟩ := readExact_length hc
                split at h
                · injection h with h hrest
                  subst hrest
                  omega
                · simp at h

/-- The loop of `read_all` over the bytes after the header.  Records are
accumulated in order; the two EOF `break`s and the CRC `break` return the
records so far, and the propagated EOFs return an error. -/
def readAllLoop (input : List Nat) (acc : List WalRecord) :
    Except String (List WalRecord) :=
  match h : parseRecord input with
  | .eofBreak => .ok acc.reverse
  | .eofError => .error "unexpected EOF"
  | .crcMismatch => .ok acc.reverse
  | .record r rest => readAllLoop rest (r :: acc)
termination_by input.length
decreasing_by exact parseRecord_record_length h

/-- Model of `WalReader::read_all`: seek past the 16-byte header, then run the loop. -/
def readAll (fileBytes : List Nat) : Except String (List WalRecord) :=
  readAllLoop (fileBytes.drop 16) []

/-! ## The radix-256 trie (`node.rs`, `radix.rs`)

Each `Node` has 256 child slots and one value slot (`node.rs`).  Atomic
pointers are modelled as `Option`: `none` is a null pointer.  The embedding
is the sequential semantics of the lock-free code: with no concurrent
writer, every compare-and-swap in a mutating operation succeeds (the
expected value was loaded immediately before), so the `Failed`/adoption
branches are unreachable and the tree update is a pure function. -/

/-- Model of `Node` (`node.rs`): a value slot and a boxed slice of child slots,
indexed by the next key byte.  `Node::new` allocates 256 null slots. -/
inductive Node where
  | mk (value : Option (List Nat)) (children : List (Option Node))

/-- The value slot (`Node::value`). -/
def Node.valueOf : Node → Option (List Nat)
  | .mk v _ => v

/-- The child-slot array (`Node::get` gives one slot of it). -/
def Node.childrenOf : Node → List (Option Node)
  | .mk _ cs => cs

/-- Model of `Node::get(b)` followed by an atomic load: the child pointer for byte
`b`, `none` when the slot is null. -/
def Node.child (n : Node) (b : Nat) : Option Node :=
  n.childrenOf.getD b none

/-- Model of `Node::new()`: all 256 child slots null, value slot null. -/
def Node.newNode : Node :=
  .mk none (List.replicate 256 none)

/-- Model of `RadixError` (`radix.rs`). -/
inductive RadixError where
  | invalidKey
  | failed (garbage : List Nat)
  | alreadyWritten (value : List Nat)
deriving DecidableEq, Repr

/-- The walk of `RadixTree::get`: follow one child slot per key byte; a null
slot means absent; at the terminal node load the value slot. -/
def walkGet : Node → List Nat → Option (List Nat)
  | n, [] => n.valueOf
  | n, b :: bs =>
    match n.child b with
    | none => none
    | some c => walkGet c bs

/-- Model of `RadixTree::get`: an empty key is rejected; otherwise walk from the
root. -/
def trieGet (root : Node) (key : List Nat) : Except RadixError (Option (List Nat)) :=
  if key = [] then .error .invalidKey else .ok (walkGet root key)

/-- The descent of `RadixTree::put`: a null child slot is replaced by a
freshly allocated node (the CAS succeeds sequentially); at the terminal node
the value slot is replaced by the new value. -/
def putAux : Node → List Nat → List Nat → Node
  | n, [], v => .mk (some v) n.childrenOf
  | n, b :: bs, v =>
    let c := (n.child b).getD Node.newNode
    .mk n.valueOf (n.childrenOf.set b (some (putAux c bs v)))

/-- Model of `RadixTree::put`.  The terminal compare-and-swap succeeds sequentially,
and `crossbeam`'s `compare_exchange` returns the pointer that was *written*
on success, so the code dereferences the newly written (never null) pointer
and returns `Ok(Some(new_value))` — not the previous value. -/
def triePut (root : Node) (key value : List Nat) :
    Except RadixError (Option (List Nat) × Node) :=
  if key = [] then .error .invalidKey
  else .ok (some value, putAux root key value)

/-- The walk of `RadixTree::remove`: a null slot on the path means the key
is absent (`Ok(None)`, tree unchanged); at the terminal node the value slot
is swapped to null and the previous value returned. -/
def removeAux : Node → List Nat → Option (List Nat) × Node
  | n, [] => (n.valueOf, .mk none n.childrenOf)
  | n, b :: bs =>
    match n.child b with
    | none => (none, n)
    | some c =>
      let res := removeAux c bs
      (res.1, .mk n.valueOf (n.childrenOf.set b (some res.2)))

/-- Model of `RadixTree::remove`. -/
def trieRemove (root : Node) (key : List Nat) :
    Except RadixError (Option (List Nat) × Node) :=
  if key = [] then .error .invalidKey else .ok (removeAux root key)

mutual

/-- Well-formedness of a trie node as allocated by `Node::new`: every child
array has exactly 256 slots, recursively. -/
def WFNode : Node → Prop
  | .mk _ cs => cs.length = 256 ∧ WFChildren cs

/-- Well-formedness of a child-slot list. -/
def WFChildren : List (Option Node) → Prop
  | [] => True
  | none :: rest => WFChildren rest
  | some c :: rest => WFNode c ∧ WFChildren rest

end

/-- The per-node stack pushes of `RadixTree::iter_all`: the loop pushes the
non-null children for `idx` in `(0..256).rev()`, so they pop in ascending
byte order; the net effect on the stack (head = top) is to prepend the
ascending-index list of `(child, prefix ++ [idx])` entries. -/
def childEntriesAux (cs : List (Option Node)) (p : List Nat) (i : Nat) :
    List (Node × List Nat) :=
  match cs with
  | [] => []
  | none :: rest => childEntriesAux rest p (i + 1)
  | some c :: rest => (c, p ++ [i]) :: childEntriesAux rest p (i + 1)

mutual

/-- Number of nodes in a (sub)tree; termination measure for the DFS stack. -/
def nodeSize : Node → Nat
  | .mk _ cs => 1 + childrenSize cs

/-- Number of nodes hanging off a child-slot list. -/
def childrenSize : List (Option Node) → Nat
  | [] => 0
  | none :: rest => childrenSize rest
  | some c :: rest => nodeSize c + childrenSize rest

end

/-- Total size of the nodes on an `iter_all` stack (termination measure). -/
def stackSize (s : List (Node × List Nat)) : Nat :=
  (s.map fun e => nodeSize e.1).sum

theorem stackSize_append (s t : List (Node × List Nat)) :
    stackSize (s ++ t) = stackSize s + stackSize t := by
  simp [stackSize]

theorem childEntriesAux_stackSize (cs : List (Option Node)) (p : List Nat)
    (i : Nat) : stackSize (childEntriesAux cs p i) = childrenSize cs := by
  induction cs generalizing p i with
  | nil => simp [childEntriesAux, stackSize, childrenSize]
  | cons c? rest ih =>
      cases c? with
      | none => simp [childEntriesAux, childrenSize, ih]
      | some c =>
          simp only [childEntriesAux, stackSize, List.map_cons, List.sum_cons,
            childrenSize]
          simp only [stackSize] at ih
          rw [ih]

theorem childrenSize_lt_nodeSize (n : Node) :
    childrenSize n.childrenOf < nodeSize n := by
  cases n with
  | mk v cs => simp [Node.childrenOf, nodeSize]

/-- The loop of `RadixTree::iter_all` (`radix.rs`): pop a node, emit its
value slot (if non-null) under the prefix accumulated so far, and push the
non-null children in descending byte order (so they pop ascending). -/
def iterStack : List (Node × List Nat) → List (List Nat × List Nat)
  | [] => []
  | (n, p) :: rest =>
    (match n.valueOf with
     | some v => [(p, v)]
     | none => []) ++ iterStack (childEntriesAux n.childrenOf p 0 ++ rest)
termination_by s => stackSize s
decreasing_by
  rw [stackSize_append, childEntriesAux_stackSize]
  have h2 := childrenSize_lt_nodeSize n
  simp only [stackSize, List.map_cons, List.sum_cons]
  simp only [stackSize] at *
  omega

/-- Model of `RadixTree::iter_all`: run the DFS loop from the root with an empty
prefix.  (The root pointer is initialized non-null by `RadixTree::new` and
never nulled.) -/
def iterAll (root : Node) : List (List Nat × List Nat) :=
  iterStack [(root, [])]

mutual

/-- Recursive reformulation of the `iter_all` DFS for one node: emit the
node's own value first, then the children in ascending byte order.  Used to
reason about `iterStack`. -/
def iterNode : Node → List Nat → List (List Nat × List Nat)
  | .mk v cs, p =>
    (match v with
     | some x => [(p, x)]
     | none => []) ++ iterChildren cs p 0

/-- Recursive reformulation of the `iter_all` DFS for a child-slot list
whose first slot has byte index `i`. -/
def iterChildren (cs : List (Option Node)) (p : List Nat) (i : Nat) :
    List (List Nat × List Nat) :=
  match cs with
  | [] => []
  | none :: rest => iterChildren rest p (i + 1)
  | some c :: rest => iterNode c (p ++ [i]) ++ iterChildren rest p (i + 1)

end

/-! ### `iter_all` produces keys in strictly ascending bytewise order -/

/-- Strict bytewise lexicographic order on keys (`Vec<u8>` ordering). -/
def lexLt (a b : List Nat) : Prop :=
  List.Lex (· < ·) a b

/-! ## Command codec (`raft-store/src/command.rs`)

`[tag: 1B][klen: 4B BE][key]` followed, for `Put` (tag 1), by
`[vlen: 4B BE][value]`.  `decode` uses `bytes::Buf` getters, which panic on
underflow, and hits `todo!()` (a panic) for an unknown tag; `none` marks a
panic. -/

/-- Model of `Command` (`command.rs`). -/
inductive Command where
  | Put (key val : List Nat)
  | Delete (key : List Nat)
deriving DecidableEq, Repr

/-- Model of `Command::encode`. -/
def Command.encode : Command → List Nat
  | .Put key val => [1] ++ natToBe 4 key.length ++ key ++ natToBe 4 val.length ++ val
  | .Delete key => [2] ++ natToBe 4 key.length ++ key

/-- Model of `Command::decode`: reads the tag, the key length and the key, then
matches on the tag; tag 1 additionally reads the value.  `get_u8`/`get_u32`/
`copy_to_slice` panic on underflow and the `_` arm is `todo!()` — all
modelled as `none`. -/
def Command.decode (data : List Nat) : Option Command :=
  match data with
  | [] => none
  | tag :: rest =>
    match readExact 4 rest with
    | none => none
    | some (klenB, rest) =>
      match readExact (beToNat klenB) rest with
      | none => none
      | some (key, rest) =>
        if tag = 1 then
          match readExact 4 rest with
          | none => none
          | some (vlenB, rest) =>
            match readExact (beToNat vlenB) rest with
            | none => none
            | some (val, _) => some (.Put key val)
        else if tag = 2 then
          some (.Delete key)
        else
          none

/-! ## The engine (`engine.rs`)

The `Engine` is modelled at two levels.

* Record level (`EngineM`): the WAL file is abstracted as the list of
  records it holds plus the header LSN field (bytes 8..16), and an SST
  reader as its in-memory index together with well-formed re-reads from the
  data block — an association list from key to value, which is exactly the
  `(key, value)` dump `flush_memtable` wrote.  `put`/`delete` take a flag
  telling whether the WAL append I/O succeeds, the single injected fault
  the code handles with `?`.
* Byte level (`openModel`): `Engine::open` + `replay_records` on the actual
  WAL file bytes, reusing the `WalReader::read_all` model. -/

/-- The in-memory index of one SST reader: `BTreeMap` lookup followed by a
well-formed re-read of `[klen][key][vlen][value]` at the stored offset. -/
def sstGet (s : List (List Nat × List Nat)) (key : List Nat) : Option (List Nat) :=
  (s.find? (fun e => e.1 = key)).map (fun e => e.2)

/-- Engine state (`engine.rs`): memtable, its byte counter, the SST readers
oldest-first, the WAL contents (records plus header LSN bytes 8..16), the
next-LSN counter and the configured byte budget. -/
structure EngineM where
  memtable : Node
  memtableBytes : Nat
  ssts : List (List (List Nat × List Nat))
  walRecords : List WalRecord
  headerLsn : Nat
  nextLsn : Nat
  memtableMaxBytes : Nat

/-- Model of `Engine::open` on an empty directory: empty WAL (header reads as 0, so
`next_lsn = 0 + 1`), no SSTs, empty memtable, byte counter 0. -/
def freshEngine (maxBytes : Nat) : EngineM :=
  ⟨Node.newNode, 0, [], [], 0, 1, maxBytes⟩

/-- Model of `Engine::flush_memtable`: dump the memtable with `iter_all` into a new
SST (appended to the reader list), replace the memtable with a fresh trie,
zero the byte counter, and reopen the WAL with truncation (which zeroes the
header, so a header read now yields LSN 0). -/
def flushM (st : EngineM) : EngineM :=
  { st with
    ssts := st.ssts ++ [iterAll st.memtable]
    memtable := Node.newNode
    memtableBytes := 0
    walRecords := []
    headerLsn := 0 }

/-- Model of `Engine::put`: flush first if the pair would reach the budget; then
mutate the trie; then bump the byte counter and the LSN; then append the Put
record to the WAL (the append also writes its LSN into header bytes 8..16).
`walOk` injects the result of the append's I/O.  Note the order: the
memtable is mutated *before* the WAL append. -/
def enginePutM (st : EngineM) (key val : List Nat) (walOk : Bool) :
    Except String (Option (List Nat)) × EngineM :=
  let st := if st.memtableBytes + key.length + val.length ≥ st.memtableMaxBytes
            then flushM st else st
  match triePut st.memtable key val with
  | .error _ => (.error "invalid key", st)
  | .ok (ret, mem') =>
    let st := { st with
      memtable := mem'
      memtableBytes := st.memtableBytes + key.length + val.length }
    let lsn := st.nextLsn
    let st := { st with nextLsn := lsn + 1 }
    if walOk then
      (.ok ret,
        { st with
          walRecords := st.walRecords ++ [⟨lsn, .Put, key, some val⟩]
          headerLsn := lsn })
    else
      (.error "io error", st)

/-- Model of `Engine::delete`: mutate the trie (no flush check, no byte-counter
update), bump the LSN, then append the Delete record. -/
def engineDeleteM (st : EngineM) (key : List Nat) (walOk : Bool) :
    Except String (Option (List Nat)) × EngineM :=
  match trieRemove st.memtable key with
  | .error _ => (.error "invalid key", st)
  | .ok (old, mem') =>
    let st := { st with memtable := mem' }
    let lsn := st.nextLsn
    let st := { st with nextLsn := lsn + 1 }
    if walOk then
      (.ok old,
        { st with
          walRecords := st.walRecords ++ [⟨lsn, .Delete, key, none⟩]
          headerLsn := lsn })
    else
      (.error "io error", st)

/-- Model of `Engine::get`: memtable first (an empty key surfaces `InvalidInput`),
then the SST readers in reverse (newest-first) order, returning the first
hit. -/
def engineGetM (st : EngineM) (key : List Nat) :
    Except String (Option (List Nat)) :=
  match trieGet st.memtable key with
  | .error _ => .error "invalid input"
  | .ok (some v) => .ok (some v)
  | .ok none => .ok (st.ssts.reverse.findSome? (fun s => sstGet s key))

/-- Model of `Engine::open` step 3: enumerate the `sst-*.dat` files and sort the
paths lexicographically (`sst_paths.sort()`), oldest-first under monotone
ids; paths are byte strings ordered as `PathBuf`s. -/
def openSstReaders (listing : List (List Nat × List (List Nat × List Nat))) :
    List (List Nat × List (List Nat × List Nat)) :=
  listing.insertionSort (fun a b => a.1 ≤ b.1)

/-- Model of the `replay_records` application loop: a Put applies `RadixTree::put`
after `record.value.unwrap()` (a panic — `none` — when the reader stored no
value, i.e. `vlen = 0`); a Delete applies `RadixTree::remove`.  A trie error
aborts the loop with `?`, and `Engine::open` merely logs that error, keeping
the partially replayed memtable. -/
def replayLoop (mem : Node) : List WalRecord → Option Node
  | [] => some mem
  | r :: rs =>
    match r.op with
    | .Put =>
      match r.value with
      | none => none
      | some v =>
        match triePut mem r.key v with
        | .error _ => some mem
        | .ok res => replayLoop res.2 rs
    | .Delete =>
      match trieRemove mem r.key with
      | .error _ => some mem
      | .ok res => replayLoop res.2 rs

/-- Model of `wal_records.sort_by_key(|w| w.lsn)`: a stable sort by LSN ascending. -/
def sortByLsn (rs : List WalRecord) : List WalRecord :=
  rs.insertionSort (fun a b => a.lsn ≤ b.lsn)

/-- The WAL file image kept by the writer for a record sequence: bytes 0..8
hold the end-of-log offset, bytes 8..16 the most recently appended record's
LSN (0 when nothing has been appended), then the records. -/
def walBytesOf (records : List WalRecord) : List Nat :=
  natToBe 8 (16 + (encodeRecords records).length) ++
    natToBe 8 (((records.getLast?).map (fun r => r.lsn)).getD 0) ++
    encodeRecords records

/-- Model of `WalWriter::open(_, false)` reading header bytes 8..16 with `seek_read`:
at most 8 bytes are read into a zero-initialized buffer (reads past EOF
leave zeroes). -/
def walHeaderLsn (bytes : List Nat) : Nat :=
  beToNat ((bytes.drop 8).take 8 ++
    List.replicate (8 - ((bytes.drop 8).take 8).length) 0)

/-- Model of `Engine::open` on a directory holding only `wal.log` with the given
bytes: initialize `next_lsn` from header bytes 8..16 plus one, then
`replay_records` — which errors out (merely logged) when the file is shorter
than 9 bytes, panics (`none`) when `read_all` fails or a Put record carries
no value, and otherwise replays in ascending-LSN order.  `memtable_bytes`
starts at 0 and replay never updates it. -/
def openModel (maxBytes : Nat) (walBytes : List Nat) : Option EngineM :=
  let headerLsn := walHeaderLsn walBytes
  if walBytes.length < 9 then
    some ⟨Node.newNode, 0, [], [], headerLsn, headerLsn + 1, maxBytes⟩
  else
    match readAll walBytes with
    | .error _ => none
    | .ok records =>
      match replayLoop Node.newNode (sortByLsn records) with
      | none => none
      | some mem => some ⟨mem, 0, [], records, headerLsn, headerLsn + 1, maxBytes⟩

/-- Model of `Engine` drop followed by `Engine::open` on the same directory (record level):
`next_lsn` is re-initialized from the WAL header's LSN plus one, the
memtable is rebuilt by replay, and the byte counter restarts at 0. -/
def restartM (st : EngineM) : Option EngineM :=
  match replayLoop Node.newNode (sortByLsn st.walRecords) with
  | none => none
  | some mem =>
    some { st with
      memtable := mem
      memtableBytes := 0
      nextLsn := st.headerLsn + 1 }

/-- Engine operations for LSN traces (C7). -/
inductive EngOp where
  | put (key val : List Nat)
  | del (key : List Nat)
  | restart
deriving DecidableEq, Repr

/-- Run a sequence of operations with successful WAL I/O, collecting the
LSNs of the successfully appended records in order.  After a successful
append the appended LSN is the new header LSN. -/
def runOps : EngineM → List EngOp → Option (EngineM × List Nat)
  | st, [] => some (st, [])
  | st, .put k v :: ops =>
    let r := enginePutM st k v true
    match runOps r.2 ops with
    | none => none
    | some (stf, lsns) =>
      some (stf, (match r.1 with
        | .ok _ => [r.2.headerLsn]
        | .error _ => []) ++ lsns)
  | st, .del k :: ops =>
    let r := engineDeleteM st k true
    match runOps r.2 ops with
    | none => none
    | some (stf, lsns) =>
      some (stf, (match r.1 with
        | .ok _ => [r.2.headerLsn]
        | .error _ => []) ++ lsns)
  | st, .restart :: ops =>
    match restartM st with
    | none => none
    | some st' => runOps st' ops

/-! ## Filesystem side effects of `flush_memtable` (C6)

Durability/atomicity of the flush is a property of the sequence of
filesystem operations the code issues, so `flush_memtable` (together with
`SSTWriter::open`/`write_all` and `WalWriter::open(_, true)`) is modelled as
the trace of filesystem events it performs, in program order. -/

/-- One filesystem operation issued during a flush. `path` arguments name
the file: the SST id for `sst-<id>.dat` files. -/
inductive FsEvent where
  /-- Event for `OpenOptions` create+truncate on `sst-<id>.dat`
  (`SSTWriter::open`, called by `flush_memtable` on the *final* path). -/
  | sstOpenTruncate (id : Nat)
  /-- the `write_all` calls emitting preamble, data block, index, footer. -/
  | sstWrite (id : Nat)
  /-- an `fsync`/`sync_data`/`sync_all` on `sst-<id>.dat` (never issued). -/
  | sstSync (id : Nat)
  /-- a rename of a temporary file onto `sst-<id>.dat` (never issued). -/
  | renameInto (id : Nat)
  /-- Event for `WalWriter::open(wal_path, true)`: truncate `wal.log`. -/
  | walTruncate
  /-- Event for `SSTReader::open` on `sst-<id>.dat`. -/
  | sstOpenRead (id : Nat)
deriving DecidableEq, Repr

/-- The filesystem trace of `Engine::flush_memtable` for SST id `id`
(`engine.rs`): open the final path with truncation, write the whole SST,
truncate the WAL, open a reader on the SST.  No temporary file, no rename,
no fsync. -/
def flushTrace (id : Nat) : List FsEvent :=
  [.sstOpenTruncate id, .sstWrite id, .walTruncate, .sstOpenRead id]

/-- Does the trace rename a temp file into place? -/
def FsEvent.isRename : FsEvent → Bool
  | .renameInto _ => true
  | _ => false

/-- Is the event a durability barrier (fsync) on an SST file? -/
def FsEvent.isSstSync : FsEvent → Bool
  | .sstSync _ => true
  | _ => false

/-- The claim's atomicity discipline over a trace: the SST appears via a
rename, and the rename happens only after an fsync of the SST. -/
def rensyncDiscipline (tr : List FsEvent) : Prop :=
  (∃ e ∈ tr, e.isRename = true) ∧
    ∀ i, (∃ id, tr.get? i = some (.renameInto id)) →
      ∃ j < i, ∃ id, tr.get? j = some (.sstSync id)

/-- The claim's WAL-truncation discipline: the WAL is truncated only after
the SST has been made durable by an fsync. -/
def walAfterSyncDiscipline (tr : List FsEvent) : Prop :=
  ∀ i, tr.get? i = some .walTruncate →
    ∃ j < i, ∃ id, tr.get? j = some (.sstSync id)

/-! ## Claim C7: LSN monotonicity -/

/-- The state after the successful-append path of `Engine::put`, starting
from the post-flush-check state `st1`. -/
def putState (st1 : EngineM) (k v : List Nat) : EngineM :=
  { st1 with
    memtable := putAux st1.memtable k v
    memtableBytes := st1.memtableBytes + k.length + v.length
    nextLsn := st1.nextLsn + 1
    walRecords := st1.walRecords ++ [⟨st1.nextLsn, .Put, k, some v⟩]
    headerLsn := st1.nextLsn }

/-- The state after the successful-append path of `Engine::delete`. -/
def delState (st : EngineM) (k : List Nat) : EngineM :=
  { st with
    memtable := (removeAux st.memtable k).2
    nextLsn := st.nextLsn + 1
    walRecords := st.walRecords ++ [⟨st.nextLsn, .Delete, k, none⟩]
    headerLsn := st.nextLsn }

/-- Operation-level invariant maintained by every complete operation with
successful WAL I/O: after every full operation the in-memory `next_lsn` is
exactly the on-disk header LSN plus one, and every Put record in the WAL
carries a value (so replay's `unwrap` cannot panic). -/
def GoodState (st : EngineM) : Prop :=
  st.nextLsn = st.headerLsn + 1 ∧
    ∀ r ∈ st.walRecords, r.op = WalOp.Put → r.value.isSome = true

/-- All `put` operations in the trace use non-empty keys. -/
def putKeysNonempty : List EngOp → Bool
  | [] => true
  | .put k _ :: ops => (!k.isEmpty) && putKeysNonempty ops
  | .del _ :: ops => putKeysNonempty ops
  | .restart :: ops => putKeysNonempty ops

/-! # Theorems -/

theorem natToBe_length (w n : Nat) : (natToBe w n).length = w := by
  induction w generalizing n with
  | zero => rfl
  | succ w ih => simp [natToBe, ih]

theorem beToNat_foldl (a : Nat) (l : List Nat) :
    l.foldl (fun acc b => acc * 256 + b) a = a * 256 ^ l.length + beToNat l := by
  induction l generalizing a with
  | nil => simp [beToNat]
  | cons x xs ih =>
      simp only [List.foldl_cons, List.length_cons, beToNat]
      rw [ih (a * 256 + x), ih (0 * 256 + x)]
      ring

theorem beToNat_append (bs cs : List Nat) :
    beToNat (bs ++ cs) = beToNat bs * 256 ^ cs.length + beToNat cs := by
  simp only [beToNat, List.foldl_append]
  exact beToNat_foldl _ cs

theorem beToNat_natToBe (w n : Nat) : beToNat (natToBe w n) = n % 256 ^ w := by
  induction w generalizing n with
  | zero => simp [natToBe, beToNat, Nat.mod_one]
  | succ w ih =>
      rw [natToBe, beToNat_append, ih]
      simp only [beToNat, List.length_cons, List.length_nil, List.foldl_cons,
        List.foldl_nil, pow_one, Nat.zero_mul, Nat.zero_add]
      have h256 : (256 : Nat) ^ (w + 1) = 256 * 256 ^ w := by ring
      rw [h256, Nat.mod_mul]
      ring

theorem beToNat_natToBe_of_lt {w n : Nat} (h : n < 256 ^ w) :
    beToNat (natToBe w n) = n := by
  rw [beToNat_natToBe, Nat.mod_eq_of_lt h]

theorem natToBe_all_lt (w n : Nat) : (natToBe w n).all (· < 256) = true := by
  induction w generalizing n with
  | zero => rfl
  | succ w ih =>
      simp only [natToBe, List.all_append, ih, List.all_cons, List.all_nil,
        Bool.and_true, Bool.true_and, decide_eq_true_eq]
      exact Nat.mod_lt _ (by norm_num)

theorem crc32Step_lt (c : Nat) : crc32Step c < 4294967296 := by
  unfold crc32Step
  split <;> exact Nat.mod_lt _ (by norm_num)

theorem crc32_lt (bytes : List Nat) : crc32 bytes < 4294967296 := by
  have hfold : ∀ (l : List Nat) (a : Nat), a < 4294967296 →
      l.foldl crc32Byte a < 4294967296 := by
    intro l
    induction l with
    | nil => intro a ha; simpa using ha
    | cons x xs ih =>
        intro a _
        exact ih _ (crc32Step_lt _)
  have h1 : (bytes.foldl crc32Byte 0xFFFFFFFF) < 4294967296 :=
    hfold bytes _ (by norm_num)
  have h2 : (0xFFFFFFFF : Nat) < 4294967296 := by norm_num
  calc crc32 bytes < 2 ^ 32 := by
        have := Nat.bitwise_lt (f := bne) (n := 32)
          (x := bytes.foldl crc32Byte 0xFFFFFFFF) (y := 0xFFFFFFFF)
          (by simpa using h1) (by norm_num)
        simpa [crc32, HXor.hXor, Nat.xor] using this
    _ = 4294967296 := by norm_num

/-! ### Round-trip and truncation behaviour of the reader -/

theorem readExact_append {n : Nat} {a : List Nat} (rest : List Nat)
    (h : a.length = n) : readExact n (a ++ rest) = some (a, rest) := by
  unfold readExact
  rw [if_pos (by simp [← h])]
  rw [List.take_left' h, List.drop_left' h]

theorem readExact_one_cons (b : Nat) (l : List Nat) :
    readExact 1 (b :: l) = some ([b], l) := by
  unfold readExact
  simp

theorem WalOp.ofByte_toByte (op : WalOp) : WalOp.ofByte op.toByte = op := by
  cases op <;> rfl

/-- Parsing a serialized record with an arbitrary stored CRC `c`: every field
is read back, and the CRC comparison decides between a parsed record and a
clean `break`. -/
theorem parseRecord_encodeRecordWithCrc (r : WalRecord) (c : Nat)
    (rest : List Nat) (hWF : WFRecord r) (hc : c < 256 ^ 4) :
    parseRecord (encodeRecordWithCrc r c ++ rest) =
      if crc32 (crcPayload r.op r.key r.value) = c then
        .record (decodedRecord r) rest
      else
        .crcMismatch := by
  obtain ⟨hklen, hvlen⟩ := hWF
  have hklen' : r.key.length % 4294967296 = r.key.length :=
    Nat.mod_eq_of_lt (by simpa using hklen)
  have hc' : c % 4294967296 = c := Nat.mod_eq_of_lt (by simpa using hc)
  cases hv : r.value with
  | none =>
      simp [parseRecord, encodeRecordWithCrc, crcPayload, decodedRecord, hv,
        List.append_assoc, readExact_append, readExact_one_cons, natToBe_length,
        beToNat_natToBe, hklen', hc', WalOp.ofByte_toByte, List.headD]
  | some v =>
      by_cases hv0 : v.length = 0
      · have hnil : v = [] := List.eq_nil_of_length_eq_zero hv0
        subst hnil
        simp [parseRecord, encodeRecordWithCrc, crcPayload, decodedRecord, hv,
          List.append_assoc, readExact_append, readExact_one_cons, natToBe_length,
          beToNat_natToBe, hklen', hc', WalOp.ofByte_toByte, List.headD]
      · have hvlt' : v.length % 4294967296 = v.length :=
          Nat.mod_eq_of_lt (by simpa using hvlen v hv)
        have hvpos : 0 < v.length := Nat.pos_of_ne_zero hv0
        have hvne : v ≠ [] := by
          intro hcontra
          exact hv0 (by simp [hcontra])
        simp [parseRecord, encodeRecordWithCrc, crcPayload, decodedRecord, hv,
          List.append_assoc, readExact_append, readExact_one_cons, natToBe_length,
          beToNat_natToBe, hklen', hvlt', hc', hvpos, hv0, hvne,
          WalOp.ofByte_toByte, List.headD]

/-- Parsing a record as actually written by `append_record` (stored CRC equals
the computed CRC) succeeds and consumes exactly the record's bytes. -/
theorem parseRecord_encodeRecord (r : WalRecord) (rest : List Nat)
    (hWF : WFRecord r) :
    parseRecord (encodeRecord r ++ rest) = .record (decodedRecord r) rest := by
  unfold encodeRecord
  rw [parseRecord_encodeRecordWithCrc r _ rest hWF (crc32_lt _)]
  rw [if_pos rfl]

/-- An input of at most 8 bytes EOFs while reading the LSN or the op byte,
which `break`s out of the loop. -/
theorem parseRecord_short (input : List Nat) (h : input.length ≤ 8) :
    parseRecord input = .eofBreak := by
  unfold parseRecord
  rcases Nat.lt_or_ge input.length 8 with hlt | hge
  · rw [show readExact 8 input = none by unfold readExact; rw [if_neg (by omega)]]
  · have h8 : input.length = 8 := le_antisymm h hge
    rw [show readExact 8 input = some (input.take 8, input.drop 8) by
      unfold readExact; rw [if_pos (by omega)]]
    simp only
    rw [show readExact 1 (input.drop 8) = none by
      unfold readExact; rw [if_neg (by simp [h8])]]

/-- An input of exactly 9 bytes reads the LSN and the op byte and then EOFs
while reading the key length, which is propagated as an error. -/
theorem parseRecord_nine (input : List Nat) (h : input.length = 9) :
    parseRecord input = .eofError := by
  unfold parseRecord
  rw [show readExact 8 input = some (input.take 8, input.drop 8) by
    unfold readExact; rw [if_pos (by omega)]]
  simp only
  rw [show readExact 1 (input.drop 8) = some ((input.drop 8).take 1, (input.drop 8).drop 1) by
    unfold readExact; rw [if_pos (by simp [h])]]
  simp only
  rw [show readExact 4 ((input.drop 8).drop 1) = none by
    unfold readExact; rw [if_neg (by simp [h])]]

theorem readAllLoop_eofBreak {input : List Nat} (acc : List WalRecord)
    (h : parseRecord input = .eofBreak) :
    readAllLoop input acc = .ok acc.reverse := by
  rw [readAllLoop]
  split
  · rfl
  · next heq => rw [h] at heq; cases heq
  · rfl
  · next heq => rw [h] at heq; cases heq

theorem readAllLoop_eofError {input : List Nat} (acc : List WalRecord)
    (h : parseRecord input = .eofError) :
    readAllLoop input acc = .error "unexpected EOF" := by
  rw [readAllLoop]
  split
  · next heq => rw [h] at heq; cases heq
  · rfl
  · next heq => rw [h] at heq; cases heq
  · next heq => rw [h] at heq; cases heq

theorem readAllLoop_crcMismatch {input : List Nat} (acc : List WalRecord)
    (h : parseRecord input = .crcMismatch) :
    readAllLoop input acc = .ok acc.reverse := by
  rw [readAllLoop]
  split
  · rfl
  · next heq => rw [h] at heq; cases heq
  · rfl
  · next heq => rw [h] at heq; cases heq

theorem readAllLoop_record {input rest : List Nat} {r : WalRecord}
    (acc : List WalRecord) (h : parseRecord input = .record r rest) :
    readAllLoop input acc = readAllLoop rest (r :: acc) := by
  rw [readAllLoop]
  split
  · next heq => rw [h] at heq; cases heq
  · next heq => rw [h] at heq; cases heq
  · next heq => rw [h] at heq; cases heq
  · next heq =>
      rw [h] at heq
      injection heq with h1 h2
      subst h1
      subst h2
      rfl

/-- Consuming a sequence of well-formed serialized records accumulates their
decoded forms and continues the loop on the remaining bytes. -/
theorem readAllLoop_encodeRecords (rs : List WalRecord)
    (hWF : ∀ r ∈ rs, WFRecord r) (suffix : List Nat) (acc : List WalRecord) :
    readAllLoop (encodeRecords rs ++ suffix) acc =
      readAllLoop suffix ((rs.map decodedRecord).reverse ++ acc) := by
  induction rs generalizing acc with
  | nil => simp [encodeRecords]
  | cons r rs ih =>
      have hsplit : encodeRecords (r :: rs) ++ suffix =
          encodeRecord r ++ (encodeRecords rs ++ suffix) := by
        simp [encodeRecords]
      rw [hsplit]
      rw [readAllLoop_record acc (parseRecord_encodeRecord r _ (hWF r (by simp)))]
      rw [ih (fun r' hr' => hWF r' (by simp [hr'])) (decodedRecord r :: acc)]
      simp

theorem readAllLoop_nil (acc : List WalRecord) :
    readAllLoop [] acc = .ok acc.reverse :=
  readAllLoop_eofBreak acc (parseRecord_short [] (by simp))

/-- Running `read_all` on a header followed by well-formed records and a tail of at
most 8 trailing bytes: the records are returned and the tail is swallowed by
the `break` on EOF at the LSN or op field. -/
theorem readAll_records_shortTail (hdr t : List Nat) (rs : List WalRecord)
    (hhdr : hdr.length = 16) (hWF : ∀ r ∈ rs, WFRecord r) (ht : t.length ≤ 8) :
    readAll (hdr ++ (encodeRecords rs ++ t)) = .ok (rs.map decodedRecord) := by
  unfold readAll
  rw [List.drop_left' hhdr]
  rw [readAllLoop_encodeRecords rs hWF t []]
  rw [readAllLoop_eofBreak _ (parseRecord_short t ht)]
  simp

/-- The reader `read_all` stops cleanly at the first record whose stored CRC differs
from the recomputed one and ignores everything after it. -/
theorem readAll_records_crcMismatch (hdr t : List Nat) (rs : List WalRecord)
    (r : WalRecord) (c : Nat) (hhdr : hdr.length = 16)
    (hWF : ∀ r' ∈ rs, WFRecord r') (hr : WFRecord r) (hc : c < 256 ^ 4)
    (hne : crc32 (crcPayload r.op r.key r.value) ≠ c) :
    readAll (hdr ++ (encodeRecords rs ++ (encodeRecordWithCrc r c ++ t))) =
      .ok (rs.map decodedRecord) := by
  unfold readAll
  rw [List.drop_left' hhdr]
  rw [readAllLoop_encodeRecords rs hWF _ []]
  have hp : parseRecord (encodeRecordWithCrc r c ++ t) = .crcMismatch := by
    rw [parseRecord_encodeRecordWithCrc r c t hr hc]
    rw [if_neg hne]
  rw [readAllLoop_crcMismatch _ hp]
  simp

/-- The reader `read_all` turns an EOF at the key-length field (9 trailing bytes: a full
LSN, a full op byte, then a truncated `klen`) into an I/O error, discarding
the records already parsed. -/
theorem readAll_records_nineTail (hdr t : List Nat) (rs : List WalRecord)
    (hhdr : hdr.length = 16) (hWF : ∀ r ∈ rs, WFRecord r) (ht : t.length = 9) :
    readAll (hdr ++ (encodeRecords rs ++ t)) = .error "unexpected EOF" := by
  unfold readAll
  rw [List.drop_left' hhdr]
  rw [readAllLoop_encodeRecords rs hWF t []]
  exact readAllLoop_eofError _ (parseRecord_nine t ht)

/-- C3 (counterexample).  The claim says that on truncation at *any* interior
field `read_all` stops and returns the records parsed so far rather than an
error.  For a WAL whose post-header bytes are a full LSN (8 bytes), an op
byte, and a 2-byte truncated key-length field, `read_all` returns an
`UnexpectedEof` I/O error (the `?` on `read_exact` at the key-length field),
not `Ok` of the records so far. -/
theorem C3_interior_truncation_errors_counterexample :
    readAll (List.replicate 16 0 ++ [0, 0, 0, 0, 0, 0, 0, 1, 1, 0, 0]) =
      .error "unexpected EOF" := by
  unfold readAll
  rw [List.drop_left' (by decide : (List.replicate 16 (0 : Nat)).length = 16)]
  exact readAllLoop_eofError [] rfl

/-- C3 (amended).  `read_all` validates each record's CRC; on the first CRC
mismatch it stops and returns the records parsed so far; EOF exactly at a
record boundary, or while reading the LSN or op fields, is not an error
(records so far are returned); but an unexpected EOF at the key-length field
(and hence at any later interior field) is returned as an I/O error rather
than the records parsed so far. -/
theorem C3_read_all_stops_amended :
    (∀ (hdr t : List Nat) (rs : List WalRecord), hdr.length = 16 →
      (∀ r ∈ rs, WFRecord r) → t.length ≤ 8 →
      readAll (hdr ++ (encodeRecords rs ++ t)) = .ok (rs.map decodedRecord)) ∧
    (∀ (hdr t : List Nat) (rs : List WalRecord) (r : WalRecord) (c : Nat),
      hdr.length = 16 → (∀ r' ∈ rs, WFRecord r') → WFRecord r → c < 256 ^ 4 →
      crc32 (crcPayload r.op r.key r.value) ≠ c →
      readAll (hdr ++ (encodeRecords rs ++ (encodeRecordWithCrc r c ++ t))) =
        .ok (rs.map decodedRecord)) ∧
    (∀ (hdr t : List Nat) (rs : List WalRecord), hdr.length = 16 →
      (∀ r ∈ rs, WFRecord r) → t.length = 9 →
      readAll (hdr ++ (encodeRecords rs ++ t)) = .error "unexpected EOF") := by
  refine ⟨?_, ?_, ?_⟩
  · intro hdr t rs hhdr hWF ht
    exact readAll_records_shortTail hdr t rs hhdr hWF ht
  · intro hdr t rs r c hhdr hWF hr hc hne
    exact readAll_records_crcMismatch hdr t rs r c hhdr hWF hr hc hne
  · intro hdr t rs hhdr hWF ht
    exact readAll_records_nineTail hdr t rs hhdr hWF ht

/-- Witness for C3 (amended): concrete instantiations of all three parts on
the record `{lsn := 1, op := Put, key := [97], value := some [98]}`. -/
theorem C3_read_all_stops_amended_witness :
    ((List.replicate 16 (0 : Nat)).length = 16 ∧
      (∀ r ∈ [WalRecord.mk 1 .Put [97] (some [98])], WFRecord r) ∧
      ([] : List Nat).length ≤ 8 ∧
      readAll (List.replicate 16 0 ++
          (encodeRecords [WalRecord.mk 1 .Put [97] (some [98])] ++ [])) =
        .ok [WalRecord.mk 1 .Put [97] (some [98])]) ∧
    (crc32 (crcPayload .Put [97] (some [98])) ≠ 5 ∧
      readAll (List.replicate 16 0 ++
          (encodeRecords [] ++
            (encodeRecordWithCrc (WalRecord.mk 1 .Put [97] (some [98])) 5 ++ [7, 7]))) =
        .ok []) ∧
    (readAll (List.replicate 16 0 ++
        (encodeRecords [WalRecord.mk 1 .Put [97] (some [98])] ++
          [0, 0, 0, 0, 0, 0, 0, 2, 1])) = .error "unexpected EOF") := by
  refine ⟨⟨by decide, by decide, by decide, ?_⟩, ⟨by decide, ?_⟩, ?_⟩
  · have h := C3_read_all_stops_amended.1 (List.replicate 16 0) []
      [WalRecord.mk 1 .Put [97] (some [98])] (by decide) (by decide) (by decide)
    simpa [decodedRecord] using h
  · exact C3_read_all_stops_amended.2.1 (List.replicate 16 0) [7, 7] []
      (WalRecord.mk 1 .Put [97] (some [98])) 5 (by decide) (by decide) (by decide)
      (by decide) (by decide)
  · exact C3_read_all_stops_amended.2.2 (List.replicate 16 0)
      [0, 0, 0, 0, 0, 0, 0, 2, 1] [WalRecord.mk 1 .Put [97] (some [98])]
      (by decide) (by decide) (by decide)

theorem lexLt_strict_prefix (p s : List Nat) (hs : s ≠ []) :
    lexLt p (p ++ s) := by
  induction p with
  | nil =>
      cases s with
      | nil => exact absurd rfl hs
      | cons x t => exact List.Lex.nil
  | cons a p ih => exact List.Lex.cons ih

theorem lexLt_append_cons_lt (p : List Nat) {j j' : Nat} (s t : List Nat)
    (h : j < j') : lexLt (p ++ j :: s) (p ++ j' :: t) := by
  induction p with
  | nil => exact List.Lex.rel h
  | cons a p ih => exact List.Lex.cons ih

/-- Flattening the recursive DFS over the pushed child entries gives the
recursive DFS of the child-slot list. -/
theorem flatten_childEntriesAux (cs : List (Option Node)) (p : List Nat)
    (i : Nat) :
    ((childEntriesAux cs p i).map fun e => iterNode e.1 e.2).flatten =
      iterChildren cs p i := by
  induction cs generalizing i with
  | nil => simp [childEntriesAux, iterChildren]
  | cons c? rest ih =>
      cases c? with
      | none => simp [childEntriesAux, iterChildren, ih]
      | some c => simp [childEntriesAux, iterChildren, ih]

/-- The stack-driven DFS of `iter_all` computes the concatenation of the
recursive DFS of each stack entry. -/
theorem iterStack_eq_flatten (s : List (Node × List Nat)) :
    iterStack s = (s.map fun e => iterNode e.1 e.2).flatten := by
  suffices H : ∀ (N : Nat) (s : List (Node × List Nat)), stackSize s < N →
      iterStack s = (s.map fun e => iterNode e.1 e.2).flatten by
    exact H (stackSize s + 1) s (by omega)
  intro N
  induction N with
  | zero => intro s h; exact absurd h (by omega)
  | succ N ih =>
      intro s hs
      match s with
      | [] =>
          rw [iterStack]
          simp
      | (n, p) :: rest =>
          rw [iterStack]
          have hsz : stackSize (childEntriesAux n.childrenOf p 0 ++ rest) <
              stackSize ((n, p) :: rest) := by
            rw [stackSize_append, childEntriesAux_stackSize]
            have h1 := childrenSize_lt_nodeSize n
            have h2 : stackSize ((n, p) :: rest) = nodeSize n + stackSize rest := by
              simp [stackSize]
            omega
          rw [ih _ (by omega)]
          rw [List.map_append, List.flatten_append, flatten_childEntriesAux]
          cases n with
          | mk v cs =>
              simp [iterNode, Node.valueOf, Node.childrenOf, List.append_assoc]

/-- Every key emitted by the recursive DFS of a node extends the node's
prefix, and the emitted keys are strictly ascending; similarly for a
child-slot list starting at byte index `i`, where every key extends the
prefix by a byte `≥ i`. -/
theorem iterNode_sorted (N : Nat) :
    ∀ (n : Node), nodeSize n ≤ N → ∀ (p : List Nat),
      (∀ k ∈ (iterNode n p).map Prod.fst, p <+: k) ∧
        ((iterNode n p).map Prod.fst).Pairwise lexLt := by
  induction N with
  | zero =>
      intro n hn
      cases n with
      | mk v cs => simp [nodeSize] at hn
  | succ N ih =>
      intro n hn p
      cases n with
      | mk v cs =>
          have hcs : childrenSize cs ≤ N := by
            simp only [nodeSize] at hn
            omega
          -- the child-slot list, by list induction with the node IH
          have Q : ∀ (cs' : List (Option Node)), childrenSize cs' ≤ N →
              ∀ (q : List Nat) (i : Nat),
                (∀ k ∈ (iterChildren cs' q i).map Prod.fst,
                    ∃ j s, i ≤ j ∧ k = q ++ j :: s) ∧
                  ((iterChildren cs' q i).map Prod.fst).Pairwise lexLt := by
            intro cs'
            induction cs' with
            | nil => intro _ q i; simp [iterChildren]
            | cons c? rest ihq =>
                intro hsz q i
                cases c? with
                | none =>
                    have h := ihq (by simpa [childrenSize] using hsz) q (i + 1)
                    refine ⟨?_, h.2⟩
                    intro k hk
                    obtain ⟨j, s, hij, hks⟩ := h.1 k (by simpa [iterChildren] using hk)
                    exact ⟨j, s, by omega, hks⟩
                | some c =>
                    have hszc : nodeSize c ≤ N := by
                      simp only [childrenSize] at hsz
                      omega
                    have hszr : childrenSize rest ≤ N := by
                      simp only [childrenSize] at hsz
                      omega
                    have hA := ih c hszc (q ++ [i])
                    have hB := ihq hszr q (i + 1)
                    have hformA : ∀ k ∈ (iterNode c (q ++ [i])).map Prod.fst,
                        ∃ s, k = q ++ i :: s := by
                      intro k hk
                      obtain ⟨s, hks⟩ := hA.1 k hk
                      exact ⟨s, by simp [← hks]⟩
                    constructor
                    · intro k hk
                      simp only [iterChildren, List.map_append, List.mem_append] at hk
                      cases hk with
                      | inl hk =>
                          obtain ⟨s, hks⟩ := hformA k hk
                          exact ⟨i, s, le_refl i, hks⟩
                      | inr hk =>
                          obtain ⟨j, s, hij, hks⟩ := hB.1 k hk
                          exact ⟨j, s, by omega, hks⟩
                    · simp only [iterChildren, List.map_append]
                      rw [List.pairwise_append]
                      refine ⟨hA.2, hB.2, ?_⟩
                      intro a ha b hb
                      obtain ⟨s, has⟩ := hformA a ha
                      obtain ⟨j, t, hij, hbt⟩ := hB.1 b hb
                      rw [has, hbt]
                      exact lexLt_append_cons_lt q s t (by omega)
          have hQ := Q cs hcs p 0
          constructor
          · intro k hk
            simp only [iterNode, List.map_append, List.mem_append] at hk
            cases hk with
            | inl hk =>
                cases v with
                | none => simp at hk
                | some x =>
                    simp at hk
                    subst hk
                    exact List.prefix_rfl
            | inr hk =>
                obtain ⟨j, s, _, hks⟩ := hQ.1 k hk
                rw [hks]
                exact ⟨j :: s, rfl⟩
          · simp only [iterNode, List.map_append]
            rw [List.pairwise_append]
            refine ⟨?_, hQ.2, ?_⟩
            · cases v with
              | none => simp
              | some x => simp
            · intro a ha b hb
              cases v with
              | none => simp at ha
              | some x =>
                  simp at ha
                  subst ha
                  obtain ⟨j, s, _, hbs⟩ := hQ.1 b hb
                  rw [hbs]
                  exact lexLt_strict_prefix a (j :: s) (by simp)

/-- C9.  `iter_all` produces its (key, value) pairs deterministically (it is
a pure function of the tree) with keys in strictly ascending bytewise
order: children are visited in ascending byte order during the depth-first
traversal and each node's own value is emitted before its descendants, so
every key emitted earlier is strictly `Lex (<)`-below every key emitted
later. -/
theorem C9_iterAll_keys_sorted (root : Node) :
    ((iterAll root).map Prod.fst).Pairwise lexLt := by
  have h : iterAll root = iterNode root [] := by
    unfold iterAll
    rw [iterStack_eq_flatten]
    simp
  rw [h]
  exact (iterNode_sorted (nodeSize root) root (le_refl _) []).2

/-! ### `put` and the value it returns (C5) -/

theorem WFChildren_replicate_none (k : Nat) :
    WFChildren (List.replicate k none) := by
  induction k with
  | zero => trivial
  | succ k ih => simpa [WFChildren] using ih

theorem WFNode_newNode : WFNode Node.newNode := by
  unfold Node.newNode WFNode
  exact ⟨by simp, WFChildren_replicate_none 256⟩

theorem WFChildren_getD {cs : List (Option Node)} (h : WFChildren cs)
    {b : Nat} {c : Node} (hc : cs.getD b none = some c) : WFNode c := by
  induction cs generalizing b with
  | nil => simp [List.getD] at hc
  | cons c? rest ih =>
      cases c? with
      | none =>
          simp only [WFChildren] at h
          cases b with
          | zero => simp at hc
          | succ b => exact ih h (by simpa using hc)
      | some c0 =>
          simp only [WFChildren] at h
          cases b with
          | zero =>
              have hcc : c0 = c := by simpa using hc
              subst hcc
              exact h.1
          | succ b => exact ih h.2 (by simpa using hc)

theorem WFChildren_set {cs : List (Option Node)} (h : WFChildren cs)
    {b : Nat} {c : Node} (hc : WFNode c) :
    WFChildren (cs.set b (some c)) := by
  induction cs generalizing b with
  | nil => trivial
  | cons c? rest ih =>
      cases c? with
      | none =>
          simp only [WFChildren] at h
          cases b with
          | zero => exact ⟨hc, h⟩
          | succ b =>
              simp only [List.set_cons_succ, WFChildren]
              exact ih h
      | some c0 =>
          simp only [WFChildren] at h
          cases b with
          | zero => exact ⟨hc, h.2⟩
          | succ b =>
              simp only [List.set_cons_succ, WFChildren]
              exact ⟨h.1, ih h.2⟩

/-- After `put`, the written value is resident at the terminal node of the
key's path. -/
theorem walkGet_putAux (key : List Nat) (n : Node) (v : List Nat)
    (hWF : WFNode n) (hbytes : key.all (· < 256) = true) :
    walkGet (putAux n key v) key = some v := by
  induction key generalizing n with
  | nil => simp [putAux, walkGet, Node.valueOf]
  | cons b bs ih =>
      cases n with
      | mk nv cs =>
          obtain ⟨hlen, hwf⟩ := hWF
          have hb : b < 256 := by
            simp only [List.all_cons, Bool.and_eq_true, decide_eq_true_eq] at hbytes
            exact hbytes.1
          have hbs : bs.all (· < 256) = true := by
            simp only [List.all_cons, Bool.and_eq_true] at hbytes
            exact hbytes.2
          have hblen : b < cs.length := by omega
          simp only [putAux, walkGet, Node.child, Node.childrenOf]
          have hget : (cs.set b
              (some (putAux ((cs.getD b none).getD Node.newNode) bs v))).getD b none =
              some (putAux ((cs.getD b none).getD Node.newNode) bs v) := by
            rw [List.getD_eq_getElem?_getD, List.getElem?_set_self (by simpa using hblen)]
            rfl
          rw [hget]
          have hcwf : WFNode ((cs.getD b none).getD Node.newNode) := by
            cases hchild : cs.getD b none with
            | none => exact WFNode_newNode
            | some c0 => simpa [Option.getD] using WFChildren_getD hwf hchild
          exact ih _ hcwf hbs

/-- C5 (counterexample).  The claim says `put` on a key with no resident
value returns `Ok(None)`.  On an empty tree (no resident value for the key
`[1,2,3]`), `put` returns `Ok(Some([4,5,6]))` — the *newly written* value —
because `crossbeam`'s `compare_exchange` hands back the pointer that was
written on success, and `radix.rs` dereferences and returns exactly that
pointer (`test_radix_put` in `radix_test.rs` asserts the same behaviour). -/
theorem C5_put_absent_key_counterexample :
    (triePut Node.newNode [1, 2, 3] [4, 5, 6]).toOption.map Prod.fst =
      some (some [4, 5, 6]) ∧
    (triePut Node.newNode [1, 2, 3] [4, 5, 6]).toOption.map Prod.fst ≠
      some none := by
  constructor
  · rfl
  · intro h
    rw [show (triePut Node.newNode [1, 2, 3] [4, 5, 6]).toOption.map Prod.fst =
        some (some [4, 5, 6]) from rfl] at h
    simp at h

/-- C5 (amended).  For every non-empty key, sequential `put` succeeds; the
terminal compare-and-swap never fails (the expected value is loaded just
before), and on success it returns the *newly written* value — `crossbeam`'s
`compare_exchange` returns the written pointer on success — so the
dereferenced pointer is never null and the result is `Ok(Some(new_value))`,
not the previous resident value and never `Ok(None)`.  After the call the
written value is resident for the key. -/
theorem C5_put_returns_written_value_amended (root : Node) (key value : List Nat)
    (hk : key ≠ []) (hWF : WFNode root) (hbytes : key.all (· < 256) = true) :
    triePut root key value = .ok (some value, putAux root key value) ∧
      trieGet (putAux root key value) key = .ok (some value) := by
  constructor
  · unfold triePut
    rw [if_neg hk]
  · unfold trieGet
    rw [if_neg hk]
    rw [walkGet_putAux key root value hWF hbytes]

/-- Witness for C5 (amended): instantiated on an empty tree with key
`[1,2,3]` and value `[4,5,6]`. -/
theorem C5_put_returns_written_value_amended_witness :
    (([1, 2, 3] : List Nat) ≠ [] ∧ WFNode Node.newNode ∧
        ([1, 2, 3] : List Nat).all (· < 256) = true) ∧
      triePut Node.newNode [1, 2, 3] [4, 5, 6] =
          .ok (some [4, 5, 6], putAux Node.newNode [1, 2, 3] [4, 5, 6]) ∧
        trieGet (putAux Node.newNode [1, 2, 3] [4, 5, 6]) [1, 2, 3] =
          .ok (some [4, 5, 6]) :=
  ⟨⟨by decide, WFNode_newNode, by decide⟩,
    C5_put_returns_written_value_amended Node.newNode [1, 2, 3] [4, 5, 6]
      (by decide) WFNode_newNode (by decide)⟩

/-! ## Claim theorems: C10, C1, C6 -/

/-- C10.  `Command::decode` on any input whose first byte (tag) is neither 1
nor 2 panics (`todo!()` in the `_` arm, modelled as `none`) instead of
surfacing a decode error to the caller — indeed `decode`'s return type
`Self` has no error channel at all.  The claim that an unknown tag "does not
panic: it surfaces a decode error" is contradicted by the code. -/
theorem C10_decode_unknown_tag_panics (t : Nat) (rest : List Nat)
    (h1 : t ≠ 1) (h2 : t ≠ 2) :
    Command.decode (t :: rest) = none := by
  unfold Command.decode
  cases h4 : readExact 4 rest with
  | none => simp only [h4]
  | some p =>
      obtain ⟨klenB, rest1⟩ := p
      simp only [h4]
      cases hk : readExact (beToNat klenB) rest1 with
      | none => simp only [hk]
      | some pk =>
          obtain ⟨key, rest2⟩ := pk
          simp only [hk]
          rw [if_neg h1, if_neg h2]

/-- Witness for C10: tag 3 with a well-formed key-length field. -/
theorem C10_decode_unknown_tag_panics_witness :
    ((3 : Nat) ≠ 1 ∧ (3 : Nat) ≠ 2) ∧
      Command.decode [3, 0, 0, 0, 0] = none :=
  ⟨⟨by decide, by decide⟩,
    C10_decode_unknown_tag_panics 3 [0, 0, 0, 0] (by decide) (by decide)⟩

/-- C1.  `Engine::put` and `Engine::delete` mutate the memtable *before*
appending to the WAL (`engine.rs`: `self.memtable.put(..)` precedes
`self.wal.append_put(..)`, and likewise for `delete`), contradicting the
claim (and the function's own doc comment) that the WAL record is appended
and synced before the memtable is mutated.  Concretely, with a failing WAL
append: `put("a","b")` on a fresh engine returns the I/O error but leaves
`a ↦ b` resident in the memtable with no WAL record for it; a subsequent
`delete("a")` with a failing append returns the error but has already
removed `a` from the memtable, with no Delete record in the WAL. -/
theorem C1_memtable_mutated_before_wal :
    (enginePutM (freshEngine 100) [97] [98] false).1 = .error "io error" ∧
    walkGet (enginePutM (freshEngine 100) [97] [98] false).2.memtable [97] =
      some [98] ∧
    (enginePutM (freshEngine 100) [97] [98] false).2.walRecords = [] ∧
    (engineDeleteM (enginePutM (freshEngine 100) [97] [98] true).2 [97] false).1 =
      .error "io error" ∧
    walkGet (engineDeleteM (enginePutM (freshEngine 100) [97] [98] true).2
      [97] false).2.memtable [97] = none ∧
    (engineDeleteM (enginePutM (freshEngine 100) [97] [98] true).2
      [97] false).2.walRecords = [⟨1, .Put, [97], some [98]⟩] :=
  ⟨rfl, rfl, rfl, rfl, rfl, rfl⟩

/-- C6 (counterexample).  `flush_memtable` issues no rename and no fsync at
all: it opens the *final* path `sst-<id>.dat` with truncation, writes the
SST into it, and truncates the WAL right after the unsynced writes.  So the
claimed temp-file/rename discipline and the claimed "WAL is not truncated
until the SST is durable" ordering are both violated by the trace. -/
theorem C6_flush_no_rename_no_sync_counterexample :
    ¬ rensyncDiscipline (flushTrace 0) ∧
    ¬ walAfterSyncDiscipline (flushTrace 0) := by
  constructor
  · intro h
    obtain ⟨⟨e, he, hre⟩, -⟩ := h
    simp [flushTrace] at he
    rcases he with h | h | h | h <;> subst h <;> simp [FsEvent.isRename] at hre
  · intro h
    obtain ⟨j, hj, id, hjeq⟩ := h 2 rfl
    match j, hj with
    | 0, _ => exact absurd hjeq (by simp [flushTrace])
    | 1, _ => exact absurd hjeq (by simp [flushTrace])

/-- C6 (amended).  For every SST id, the flush trace contains no rename and
no fsync; the SST is created by truncating the final path `sst-<id>.dat`
directly; and the WAL is truncated after the SST bytes are written (but
before any durability barrier, since there is none).  A concurrent reader
of `sst-<id>.dat` can therefore observe a partially written file. -/
theorem C6_flush_trace_amended (id : Nat) :
    (flushTrace id).all (fun e => !e.isRename) = true ∧
    (flushTrace id).all (fun e => !e.isSstSync) = true ∧
    (flushTrace id).get? 0 = some (.sstOpenTruncate id) ∧
    (flushTrace id).get? 1 = some (.sstWrite id) ∧
    (flushTrace id).get? 2 = some .walTruncate := by
  refine ⟨?_, ?_, rfl, rfl, rfl⟩
  · simp [flushTrace, FsEvent.isRename]
  · simp [flushTrace, FsEvent.isSstSync]

theorem enginePutM_eq (st : EngineM) (k v : List Nat) (hk : k ≠ []) :
    enginePutM st k v true =
      (.ok (some v),
        putState
          (if st.memtableBytes + k.length + v.length ≥ st.memtableMaxBytes
           then flushM st else st) k v) := by
  unfold enginePutM triePut putState
  simp only [if_neg hk, if_true]

theorem engineDeleteM_eq (st : EngineM) (k : List Nat) (hk : k ≠ []) :
    engineDeleteM st k true = (.ok (removeAux st.memtable k).1, delState st k) := by
  unfold engineDeleteM trieRemove delState
  simp only [if_neg hk, if_true]

theorem engineDeleteM_emptyKey (st : EngineM) :
    engineDeleteM st [] true = (.error "invalid key", st) := rfl

theorem replayLoop_isSome (rs : List WalRecord) (mem : Node)
    (h : ∀ r ∈ rs, r.op = WalOp.Put → r.value.isSome = true) :
    (replayLoop mem rs).isSome = true := by
  induction rs generalizing mem with
  | nil => rfl
  | cons r rs ih =>
      have hr := h r (by simp)
      have hrs : ∀ r' ∈ rs, r'.op = WalOp.Put → r'.value.isSome = true :=
        fun r' hmem => h r' (by simp [hmem])
      cases hop : r.op with
      | Put =>
          cases hv : r.value with
          | none => rw [hop, hv] at hr; exact absurd (hr rfl) (by simp)
          | some v =>
              simp only [replayLoop, hop, hv]
              cases hput : triePut mem r.key v with
              | error e => simp
              | ok res => exact ih res.2 hrs
      | Delete =>
          simp only [replayLoop, hop]
          cases hrem : trieRemove mem r.key with
          | error e => simp
          | ok res => exact ih res.2 hrs

theorem restartM_isSome (st : EngineM) (hg : GoodState st) :
    ∃ mem, restartM st = some { st with
      memtable := mem
      memtableBytes := 0
      nextLsn := st.headerLsn + 1 } := by
  have hsome := replayLoop_isSome (sortByLsn st.walRecords) Node.newNode
    (fun r hr => hg.2 r ((List.perm_insertionSort _ st.walRecords).mem_iff.mp hr))
  cases hrep : replayLoop Node.newNode (sortByLsn st.walRecords) with
  | none => rw [hrep] at hsome; exact absurd hsome (by simp)
  | some mem =>
      refine ⟨mem, ?_⟩
      unfold restartM
      rw [hrep]

/-- Along any trace whose `put`s use non-empty keys, starting from a state
satisfying the invariant: the run completes (no replay panic), the appended
LSNs are strictly increasing, every appended LSN is at least the starting
`next_lsn`, and the invariant is preserved. -/
theorem runOps_good (ops : List EngOp) : ∀ (st : EngineM),
    putKeysNonempty ops = true → GoodState st →
    ∃ stf lsns, runOps st ops = some (stf, lsns) ∧
      lsns.Pairwise (· < ·) ∧ (∀ l ∈ lsns, st.nextLsn ≤ l) ∧ GoodState stf := by
  induction ops with
  | nil => intro st _ hg; exact ⟨st, [], rfl, by simp, by simp, hg⟩
  | cons op ops ih =>
      intro st hops hg
      cases op with
      | put k v =>
          have hk : k ≠ [] := by
            intro hcontra
            subst hcontra
            simp [putKeysNonempty] at hops
          have hops' : putKeysNonempty ops = true := by
            simp only [putKeysNonempty, Bool.and_eq_true] at hops
            exact hops.2
          set st1 := if st.memtableBytes + k.length + v.length ≥ st.memtableMaxBytes
            then flushM st else st with hst1
          have hn1 : st1.nextLsn = st.nextLsn := by
            rw [hst1]; split <;> rfl
          have hrec1 : ∀ r ∈ st1.walRecords, r.op = WalOp.Put → r.value.isSome = true := by
            rw [hst1]; split
            · intro r hr; simp [flushM] at hr
            · exact hg.2
          have hg2 : GoodState (putState st1 k v) := by
            constructor
            · simp [putState]
            · intro r hr hop
              simp only [putState, List.mem_append, List.mem_singleton] at hr
              cases hr with
              | inl hr => exact hrec1 r hr hop
              | inr hr => subst hr; simp
          obtain ⟨stf, lsns, hrun, hpw, hlb, hgf⟩ := ih (putState st1 k v) hops' hg2
          refine ⟨stf, (putState st1 k v).headerLsn :: lsns, ?_, ?_, ?_, hgf⟩
          · simp only [runOps, enginePutM_eq st k v hk, ← hst1, hrun]
            rfl
          · refine List.Pairwise.cons ?_ hpw
            intro l hl
            have := hlb l hl
            simp only [putState] at this ⊢
            omega
          · intro l hl
            simp only [List.mem_cons] at hl
            cases hl with
            | inl hl => subst hl; simp [putState, hn1]
            | inr hl =>
                have := hlb l hl
                simp only [putState, hn1] at this
                omega
      | del k =>
          have hops' : putKeysNonempty ops = true := by
            simpa [putKeysNonempty] using hops
          by_cases hk : k = []
          · subst hk
            obtain ⟨stf, lsns, hrun, hpw, hlb, hgf⟩ := ih st hops' hg
            refine ⟨stf, lsns, ?_, hpw, hlb, hgf⟩
            simp only [runOps, engineDeleteM_emptyKey st, hrun]
            rfl
          · have hg2 : GoodState (delState st k) := by
              constructor
              · simp [delState]
              · intro r hr hop
                simp only [delState, List.mem_append, List.mem_singleton] at hr
                cases hr with
                | inl hr => exact hg.2 r hr hop
                | inr hr => subst hr; simp at hop
            obtain ⟨stf, lsns, hrun, hpw, hlb, hgf⟩ := ih (delState st k) hops' hg2
            refine ⟨stf, (delState st k).headerLsn :: lsns, ?_, ?_, ?_, hgf⟩
            · simp only [runOps, engineDeleteM_eq st k hk, hrun]
              rfl
            · refine List.Pairwise.cons ?_ hpw
              intro l hl
              have := hlb l hl
              simp only [delState] at this ⊢
              omega
            · intro l hl
              simp only [List.mem_cons] at hl
              cases hl with
              | inl hl => subst hl; simp [delState]
              | inr hl =>
                  have := hlb l hl
                  simp only [delState] at this
                  omega
      | restart =>
          have hops' : putKeysNonempty ops = true := by
            simpa [putKeysNonempty] using hops
          obtain ⟨mem, hst'⟩ := restartM_isSome st hg
          have hg2 : GoodState { st with
              memtable := mem
              memtableBytes := 0
              nextLsn := st.headerLsn + 1 } := ⟨rfl, hg.2⟩
          obtain ⟨stf, lsns, hrun, hpw, hlb, hgf⟩ := ih _ hops' hg2
          refine ⟨stf, lsns, ?_, hpw, ?_, hgf⟩
          · simp only [runOps, hst', hrun]
          · intro l hl
            have hb := hlb l hl
            simp only at hb
            have he := hg.1
            omega

/-- C7 (counterexample).  The claim's strict LSN monotonicity fails on the
trace `put "a" "b"; put "" "x"; restart; put "c" "d"` with a 2-byte
memtable budget: the empty-key `put` triggers the flush (truncating the WAL
and zeroing its header) *before* the key is rejected, so the following
graceful restart re-initializes `next_lsn` from the zeroed header to 1 and
the last `put` reuses LSN 1 — the appended-LSN sequence is `[1, 1]`. -/
theorem C7_lsn_reuse_counterexample :
    (runOps (freshEngine 2)
        [.put [97] [98], .put [] [120], .restart, .put [99] [100]]).map
      (fun r => r.2) = some [1, 1] ∧
    ¬ ([1, 1] : List Nat).Pairwise (· < ·) := by
  constructor
  · rfl
  · intro h
    have := List.rel_of_pairwise_cons h (List.mem_singleton.mpr rfl)
    omega

/-- C7 (amended).  On open, `next_lsn` is the WAL header's most-recent-LSN
plus 1 (1 for a fresh/empty header), each successful append records its LSN
in header bytes 8..16, and — provided every `put` in the trace uses a
non-empty key, so that no flush is triggered by an operation that then
fails key validation — the sequence of LSNs of successfully appended WAL
records over any trace of operations and graceful restarts is strictly
increasing. -/
theorem C7_lsn_monotonic_amended (maxBytes : Nat) (ops : List EngOp)
    (hops : putKeysNonempty ops = true) :
    (freshEngine maxBytes).nextLsn = (freshEngine maxBytes).headerLsn + 1 ∧
    (∀ st st', restartM st = some st' → st'.nextLsn = st.headerLsn + 1) ∧
    ∃ stf lsns, runOps (freshEngine maxBytes) ops = some (stf, lsns) ∧
      lsns.Pairwise (· < ·) := by
  refine ⟨rfl, ?_, ?_⟩
  · intro st st' h
    unfold restartM at h
    cases hrep : replayLoop Node.newNode (sortByLsn st.walRecords) with
    | none => rw [hrep] at h; cases h
    | some mem =>
        rw [hrep] at h
        injection h with h
        subst h
        rfl
  · obtain ⟨stf, lsns, h1, h2, -, -⟩ :=
      runOps_good ops (freshEngine maxBytes) hops
        ⟨rfl, by intro r hr; simp [freshEngine] at hr⟩
    exact ⟨stf, lsns, h1, h2⟩

/-- Witness for C7 (amended): a concrete trace with non-empty put keys. -/
theorem C7_lsn_monotonic_amended_witness :
    putKeysNonempty [.put [97] [98], .del [97], .restart, .put [98] [99]] = true ∧
      ((freshEngine 100).nextLsn = (freshEngine 100).headerLsn + 1 ∧
        (∀ st st', restartM st = some st' → st'.nextLsn = st.headerLsn + 1) ∧
        ∃ stf lsns, runOps (freshEngine 100)
            [.put [97] [98], .del [97], .restart, .put [98] [99]] =
            some (stf, lsns) ∧ lsns.Pairwise (· < ·)) :=
  ⟨by decide,
    C7_lsn_monotonic_amended 100
      [.put [97] [98], .del [97], .restart, .put [98] [99]] (by decide)⟩

/-! ## Claim C2: read path shadowing -/

theorem findSome?_append_none {α β : Type} (f : α → Option β) (l₁ l₂ : List α)
    (h : ∀ x ∈ l₁, f x = none) :
    (l₁ ++ l₂).findSome? f = l₂.findSome? f := by
  induction l₁ with
  | nil => simp
  | cons a l ih =>
      have ha : f a = none := h a (by simp)
      simp only [List.cons_append, List.findSome?]
      rw [ha]
      exact ih (fun x hx => h x (by simp [hx]))

/-- C2.  `Engine::get` returns the memtable's value whenever the key is
resident there; otherwise it probes the SST readers newest-first (the
reverse of the oldest-first reader list) and returns the first hit, so the
memtable shadows all SSTs and, among SSTs, a newer one shadows an older
one whenever every reader newer than the hit misses; and `Engine::open`
sorts the `sst-*.dat` paths lexicographically, so the reader list is
ordered by file name ascending (oldest-first under monotone ids). -/
theorem C2_get_shadowing :
    (∀ (st : EngineM) (k v : List Nat),
      trieGet st.memtable k = .ok (some v) → engineGetM st k = .ok (some v)) ∧
    (∀ (st : EngineM) (k v : List Nat)
      (pre post : List (List (List Nat × List Nat)))
      (s : List (List Nat × List Nat)),
      trieGet st.memtable k = .ok none → st.ssts = pre ++ s :: post →
      sstGet s k = some v → (∀ s' ∈ post, sstGet s' k = none) →
      engineGetM st k = .ok (some v)) ∧
    (∀ listing, ((openSstReaders listing).map Prod.fst).Pairwise (· ≤ ·)) := by
  refine ⟨?_, ?_, ?_⟩
  · intro st k v h
    simp only [engineGetM, h]
  · intro st k v pre post s h hssts hhit hmiss
    simp only [engineGetM, h, hssts]
    have hrev : (pre ++ s :: post).reverse =
        post.reverse ++ (s :: pre.reverse) := by
      simp
    rw [hrev]
    rw [findSome?_append_none _ post.reverse _
      (fun x hx => hmiss x (List.mem_reverse.mp hx))]
    simp only [List.findSome?]
    rw [hhit]
  · intro listing
    haveI hTot : IsTotal (List Nat × List (List Nat × List Nat))
        (fun a b => a.1 ≤ b.1) := ⟨fun a b => le_total a.1 b.1⟩
    haveI hTrans : IsTrans (List Nat × List (List Nat × List Nat))
        (fun a b => a.1 ≤ b.1) := ⟨fun _ _ _ hab hbc => le_trans hab hbc⟩
    have hs := List.sorted_insertionSort (fun a b => a.1 ≤ b.1) listing
    exact List.pairwise_map.mpr hs

/-- Witness for C2: a memtable hit shadowing two SSTs; an SST hit in the
older of two SSTs with the newer one missing the key; a two-file listing
sorted by name. -/
theorem C2_get_shadowing_witness :
    (trieGet (putAux Node.newNode [97] [9]) [97] = .ok (some [9]) ∧
      engineGetM ⟨putAux Node.newNode [97] [9], 2,
        [[([97], [1])], [([98], [2])]], [], 0, 1, 100⟩ [97] = .ok (some [9])) ∧
    (trieGet Node.newNode [97] = .ok none ∧
      ([[([97], [1])], [([98], [2])]] :
          List (List (List Nat × List Nat))) = [] ++ [([97], [1])] :: [[([98], [2])]] ∧
      sstGet [([97], [1])] [97] = some [1] ∧
      (∀ s' ∈ [[([98], [2])]], sstGet s' [97] = none) ∧
      engineGetM ⟨Node.newNode, 0,
        [[([97], [1])], [([98], [2])]], [], 0, 1, 100⟩ [97] = .ok (some [1])) ∧
    ((openSstReaders [([98], []), ([97], [])]).map Prod.fst).Pairwise (· ≤ ·) := by
  refine ⟨⟨rfl, ?_⟩, ⟨rfl, rfl, rfl, by decide, ?_⟩, ?_⟩
  · exact C2_get_shadowing.1
      ⟨putAux Node.newNode [97] [9], 2, [[([97], [1])], [([98], [2])]], [], 0, 1, 100⟩
      [97] [9] rfl
  · exact C2_get_shadowing.2.1
      ⟨Node.newNode, 0, [[([97], [1])], [([98], [2])]], [], 0, 1, 100⟩
      [97] [1] [] [[([98], [2])]] [([97], [1])]
      rfl rfl rfl (by decide)
  · exact C2_get_shadowing.2.2 [([98], []), ([97], [])]

/-! ## Claims C8 and C4: recovery -/

theorem readAll_walBytesOf (rs : List WalRecord)
    (hWF : ∀ r ∈ rs, WFRecord r) :
    readAll (walBytesOf rs) = .ok (rs.map decodedRecord) := by
  have h := readAll_records_shortTail
    (natToBe 8 (16 + (encodeRecords rs).length) ++
      natToBe 8 (((rs.getLast?).map (fun r => r.lsn)).getD 0)) [] rs
    (by simp [natToBe_length]) hWF (by simp)
  simpa [walBytesOf, List.append_assoc] using h

theorem openModel_walBytesOf (maxB : Nat) (rs : List WalRecord)
    (hWF : ∀ r ∈ rs, WFRecord r) :
    openModel maxB (walBytesOf rs) =
      match replayLoop Node.newNode (sortByLsn (rs.map decodedRecord)) with
      | none => none
      | some mem =>
        some ⟨mem, 0, [], rs.map decodedRecord, walHeaderLsn (walBytesOf rs),
          walHeaderLsn (walBytesOf rs) + 1, maxB⟩ := by
  have hlen : ¬ (walBytesOf rs).length < 9 := by
    simp only [walBytesOf, List.length_append, natToBe_length, Nat.not_lt]
    omega
  unfold openModel
  rw [if_neg hlen]
  simp only [readAll_walBytesOf rs hWF]

/-- C8 (counterexample).  For a WAL holding the single valid record
`Put(lsn 1, "a" ↦ "b")`, replay reconstructs `a ↦ b` in the memtable, and
the surviving key+value bytes sum to 2, yet `memtable_bytes` after open is
0: `replay_records` never updates the counter (`Engine::open` initializes
it to 0 and replay only touches the trie). -/
theorem C8_memtableBytes_not_updated_counterexample :
    (openModel 100 (walBytesOf [⟨1, .Put, [97], some [98]⟩])).map
      (fun st => st.memtableBytes) = some 0 ∧
    (openModel 100 (walBytesOf [⟨1, .Put, [97], some [98]⟩])).map
      (fun st => walkGet st.memtable [97]) = some (some [98]) ∧
    ([97] : List Nat).length + ([98] : List Nat).length = 2 ∧ (0 : Nat) ≠ 2 := by
  have h := openModel_walBytesOf 100 [⟨1, .Put, [97], some [98]⟩] (by decide)
  refine ⟨?_, ?_, rfl, by decide⟩
  · rw [h]; rfl
  · rw [h]; rfl

/-- C8 (amended).  After recovery the engine's `memtable_bytes` counter is
0, whatever the WAL contents: `Engine::open` initializes it to 0 and
`replay_records` applies the records to the trie without ever updating the
counter. -/
theorem C8_memtableBytes_zero_amended (maxB : Nat) (bytes : List Nat)
    (st : EngineM) (h : openModel maxB bytes = some st) :
    st.memtableBytes = 0 := by
  unfold openModel at h
  by_cases hlen : bytes.length < 9
  · rw [if_pos hlen] at h
    injection h with h
    subst h
    rfl
  · rw [if_neg hlen] at h
    cases hra : readAll bytes with
    | error e => simp [hra] at h
    | ok records =>
        simp only [hra] at h
        cases hrl : replayLoop Node.newNode (sortByLsn records) with
        | none => simp [hrl] at h
        | some mem =>
            simp only [hrl] at h
            injection h with h
            subst h
            rfl

/-- Witness for C8 (amended): open on the WAL holding `Put(1, "a" ↦ "b")`
succeeds and the counter is 0. -/
theorem C8_memtableBytes_zero_amended_witness :
    (openModel 100 (walBytesOf [⟨1, .Put, [97], some [98]⟩])).isSome = true ∧
    (openModel 100 (walBytesOf [⟨1, .Put, [97], some [98]⟩])).map
      (fun st => st.memtableBytes) = some 0 := by
  have h := openModel_walBytesOf 100 [⟨1, .Put, [97], some [98]⟩] (by decide)
  have hsome : ∃ st, openModel 100 (walBytesOf [⟨1, .Put, [97], some [98]⟩]) =
      some st := by
    rw [h]
    exact ⟨_, rfl⟩
  obtain ⟨st, hst⟩ := hsome
  refine ⟨by rw [hst]; rfl, ?_⟩
  rw [hst]
  simp only [Option.map_some']
  rw [C8_memtableBytes_zero_amended 100 _ st hst]

/-- C4.  An empty value is accepted by `Engine::put` and its WAL record
carries `vlen = 0` — but recovery then panics instead of reconstructing the
mapping: `read_all` parses `vlen = 0` back as `value = None`, and
`replay_records` does `record.value.unwrap()` on every Put record, which
panics on `None`.  Concretely: `put("a", "")` succeeds and appends
`Put(lsn 1, key "a", vlen 0)`; `read_all` on that WAL returns the record
with `value = None`; `Engine::open` on that WAL panics (`none`). -/
theorem C4_empty_value_recovery_panics :
    (enginePutM (freshEngine 100) [97] [] true).1 = .ok (some []) ∧
    (enginePutM (freshEngine 100) [97] [] true).2.walRecords =
      [⟨1, .Put, [97], some []⟩] ∧
    readAll (walBytesOf [⟨1, .Put, [97], some []⟩]) =
      .ok [⟨1, .Put, [97], none⟩] ∧
    openModel 100 (walBytesOf [⟨1, .Put, [97], some []⟩]) = none := by
  have hra := readAll_walBytesOf [⟨1, .Put, [97], some []⟩] (by decide)
  have hom := openModel_walBytesOf 100 [⟨1, .Put, [97], some []⟩] (by decide)
  refine ⟨rfl, rfl, ?_, ?_⟩
  · rw [hra]
    rfl
  · rw [hom]
    rfl

end Sledlite

